import Mathlib

/-!
Shallow embedding of the compile-time typelist and tuple machinery of the
repository (src/examples/typelists.hpp and src/examples/tuples/).

The C++ code computes with lists of types and lists of compile-time
constants; all its algorithms are generic template metafunctions.  The
embedding erases the distinction between "type" elements and "value"
elements: a TypeList over element sort sigma becomes a Lean List sigma and
every metafunction becomes a Lean function on lists, translated clause by
clause from the corresponding template specializations.  Positions that are
a compile error in C++ (a missing specialization or overload) are embedded
as Option with value none.
-/

namespace TL

/-- PushFrontT (typelists.hpp): prepend an element to a list. -/
def pushFront {σ : Type} (e : σ) (l : List σ) : List σ := e :: l

/-- PushBackT (typelists.hpp): the recursive case peels the front and pushes
it onto the recursively extended tail; the base case (IsEmpty true) pushes
the new element onto the empty list. -/
def pushBack {σ : Type} (e : σ) : List σ → List σ
  | [] => pushFront e []
  | h :: t => pushFront h (pushBack e t)

/-- ReverseT (typelists.hpp): push the front element onto the back of the
reversed tail; the empty list is its own reverse. -/
def reverse {σ : Type} : List σ → List σ
  | [] => []
  | h :: t => pushBack h (reverse t)

/-- TransformT general recursive case together with its empty base case
(typelists.hpp): peel the front, transform it, recurse on the tail, push the
transformed front back on. -/
def transformRec {σ τ : Type} (f : σ → τ) : List σ → List τ
  | [] => []
  | h :: t => pushFront (f h) (transformRec f t)

/-- TransformT pack-expansion specialization (typelists.hpp): map the
metafunction over all elements in one step. -/
def transformPack {σ τ : Type} (f : σ → τ) (l : List σ) : List τ :=
  l.map f

/-- InsertSortedT (typelists.hpp): insert an element into an already sorted
list.  When the comparison Compare of the element against the front holds the
new head is the element and the tail is the whole list; otherwise the head is
kept and the element is inserted into the popped tail.  The base case pushes
the element onto the empty list. -/
def insertSorted {σ : Type} (cmp : σ → σ → Bool) : List σ → σ → List σ
  | [], e => pushFront e []
  | x :: xs, e => if cmp e x then pushFront e (x :: xs) else pushFront x (insertSorted cmp xs e)

/-- InsertionSortT (typelists.hpp): sort the popped tail recursively, then
insert the front element into it; the empty list is already sorted. -/
def insertionSort {σ : Type} (cmp : σ → σ → Bool) : List σ → List σ
  | [] => []
  | h :: t => insertSorted cmp (insertionSort cmp t) h

/-- MakeIndexListT recursion (makeindexlist.hpp): MakeIndexListT of N and
accumulator Result derives from MakeIndexListT of N-1 with N-1 pushed onto
the front of Result; at N = 0 the accumulator is the answer. -/
def makeIndexListAux : Nat → List Nat → List Nat
  | 0, r => r
  | n + 1, r => makeIndexListAux n (pushFront n r)

/-- MakeIndexList (makeindexlist.hpp): start the recursion with the empty
ValueList of unsigned as accumulator. -/
def makeIndexList (n : Nat) : List Nat := makeIndexListAux n []

end TL

/-- The naive Tuple (tuples/tuple.hpp): a head member and a recursively
nested tail sub-record, with the empty Tuple as terminal case.  Element
types are erased to a single sort alpha. -/
inductive Tuple (α : Type) where
  | nil : Tuple α
  | cons (head : α) (tail : Tuple α) : Tuple α
deriving DecidableEq, Repr

namespace Tuple

/-- Build a Tuple from its list of element values (the variadic
constructor / make_tuple). -/
def ofList {α : Type} : List α → Tuple α
  | [] => .nil
  | h :: t => .cons h (ofList t)

/-- The list of element values of a Tuple, in order. -/
def toList {α : Type} : Tuple α → List α
  | .nil => []
  | .cons h t => h :: toList t

/-- TupleGet and get (tuples/tuple.hpp): get of 0 returns the head, get of
N+1 recurses into the tail; on the empty tuple no specialization applies (a
compile error), embedded as none. -/
def get? {α : Type} : Nat → Tuple α → Option α
  | 0, .cons h _ => some h
  | n + 1, .cons _ t => get? n t
  | _, .nil => none

/-- push_front (tuples/algos.hpp): construct the Tuple with the new value as
head and the original record as tail. -/
def push_front {α : Type} (t : Tuple α) (v : α) : Tuple α := .cons v t

/-- push_back (tuples/algos.hpp): the basis case wraps the value in a
singleton record; the recursive case rebuilds the record with the value
pushed onto the tail. -/
def push_back {α : Type} : Tuple α → α → Tuple α
  | .nil, v => .cons v .nil
  | .cons h t, v => .cons h (push_back t v)

/-- pop_front (tuples/algos.hpp): return the tail of the record; on the
empty record get_tail does not exist (a compile error), embedded as none. -/
def pop_front {α : Type} : Tuple α → Option (Tuple α)
  | .nil => none
  | .cons _ t => some t

/-- The pack expansion get of Indices applied to t inside select
(tuples/algos.hpp): gather the element at each listed index; any invalid
index is a compile error, embedded as none. -/
def gather {α : Type} (t : Tuple α) : List Nat → Option (List α)
  | [] => some []
  | i :: is =>
    match get? i t, gather t is with
    | some v, some vs => some (v :: vs)
    | _, _ => none

/-- select as written (tuples/algos.hpp): the body calls make_Tuple on the
gathered elements, but make_Tuple is declared nowhere in the program's
include closure (tuple.hpp declares make_tuple, and C++ identifiers are
case-sensitive); neither ordinary lookup at the template definition nor
argument-dependent lookup at instantiation finds it, so every
instantiation of select is ill-formed, embedded as none. -/
def select {α : Type} (_t : Tuple α) (_idxs : List Nat) : Option (Tuple α) :=
  none

/-- select as evidently intended (tuples/algos.hpp with the make_Tuple
call resolving to the make_tuple of tuple.hpp): build a new record from
the elements of t at the given index positions. -/
def select_intended {α : Type} (t : Tuple α) (idxs : List Nat) : Option (Tuple α) :=
  (gather t idxs).map ofList

/-- reverse as written (tuples/algos.hpp): select with the reversed index
list of the record's arity; inherits select's ill-formed instantiation. -/
def reverse {α : Type} (t : Tuple α) : Option (Tuple α) :=
  select t (TL.reverse (TL.makeIndexList t.toList.length))

/-- reverse over the intended select. -/
def reverse_intended {α : Type} (t : Tuple α) : Option (Tuple α) :=
  select_intended t (TL.reverse (TL.makeIndexList t.toList.length))

/-- pop_back as written (tuples/algos.hpp): reverse, then pop_front, then
reverse; inherits select's ill-formed instantiation. -/
def pop_back {α : Type} (t : Tuple α) : Option (Tuple α) :=
  (reverse t).bind (fun r => (pop_front r).bind (fun p => Tuple.reverse p))

/-- pop_back over the intended select: reverse, then pop_front, then
reverse. -/
def pop_back_intended {α : Type} (t : Tuple α) : Option (Tuple α) :=
  (reverse_intended t).bind (fun r => (pop_front r).bind (fun p => Tuple.reverse_intended p))

end Tuple

/-- operator== on Tuples (tuples/tupleeq.hpp), parameterized by the
elementwise comparison eq.  Two empty tuples compare equal; two nonempty
tuples whose tails have the same arity (the enable_if constraint) compare
heads first and, through the short-circuiting of the C++ conjunction,
compare tails only when the heads agree.  When the tails' arities differ,
or exactly one side is empty, no overload exists (a compile error),
embedded as none. -/
def tupleEq {α : Type} (eq : α → α → Bool) : Tuple α → Tuple α → Option Bool
  | .nil, .nil => some true
  | .cons h1 t1, .cons h2 t2 =>
    if t1.toList.length = t2.toList.length then
      if eq h1 h2 then tupleEq eq t1 t2 else some false
    else none
  | _, _ => none

/-- The same recursion as tupleEq, instrumented with the number of
elementwise eq comparisons the C++ expression actually evaluates: the head
comparison is always evaluated, and the conjunction evaluates the tail
comparison only when the head comparison came out true. -/
def tupleEqCount {α : Type} (eq : α → α → Bool) : Tuple α → Tuple α → Option Bool × Nat
  | .nil, .nil => (some true, 0)
  | .cons h1 t1, .cons h2 t2 =>
    if t1.toList.length = t2.toList.length then
      if eq h1 h2 then
        let r := tupleEqCount eq t1 t2
        (r.1, r.2 + 1)
      else (some false, 1)
    else (none, 0)
  | _, _ => (none, 0)

/-- print_tuple (tuples/tupleio.hpp), with the stream output collected into
a String and the elementwise stream insertion abstracted as showE.  The
empty-tuple overload prints a single character: an opening parenthesis when
isFirst holds and a closing one otherwise.  The nonempty overload prints an
opening parenthesis or a separating comma-space, then the head, then the
tail with isFirst set to false. -/
def print_tuple {α : Type} (showE : α → String) : Tuple α → Bool → String
  | .nil, isFirst => if isFirst then "(" else ")"
  | .cons h t, isFirst =>
    (if isFirst then "(" else ", ") ++ showE h ++ print_tuple showE t false

/-- operator<< on Tuples (tuples/tupleio.hpp): print_tuple with isFirst
defaulted to true. -/
def streamTuple {α : Type} (showE : α → String) (t : Tuple α) : String :=
  print_tuple showE t true

/-- Tuple4 (tuples/optimized/tuplestorage4.hpp): same observable head/tail
structure as the naive Tuple; each element is held by the carrier TupleElt2
tagged with its height, the arity of the tail at that position.  Element
types are erased to a single sort alpha, so the embedding keeps the
head/tail spine and recovers each carrier height as the tail length. -/
inductive Tuple4 (α : Type) where
  | nil : Tuple4 α
  | cons (head : α) (tail : Tuple4 α) : Tuple4 α
deriving DecidableEq, Repr

namespace Tuple4

/-- sizeof...(Types) of a Tuple4: its arity. -/
def len {α : Type} : Tuple4 α → Nat
  | .nil => 0
  | .cons _ t => len t + 1

/-- The linear recursive-descent get (the TupleGet recursion of
tuples/tuple.hpp applied to Tuple4's get_head and get_tail): get of 0
returns the head, get of N+1 walks one tail link; on the empty record no
specialization applies (a compile error), embedded as none. -/
def getLin {α : Type} : Nat → Tuple4 α → Option α
  | 0, .cons h _ => some h
  | n + 1, .cons _ t => getLin n t
  | _, .nil => none

/-- getHeight (tuples/optimized/constantget.hpp): the derived-to-base
conversion from Tuple4 to the carrier TupleElt2 of height H.  The record
Tuple4 of head and tail has the carrier of the head at height len tail,
plus every carrier of the tail; the heights strictly decrease along the
spine, so at most one carrier matches.  When no carrier has height H the
conversion is a compile error, embedded as none. -/
def getHeight {α : Type} (H : Nat) : Tuple4 α → Option α
  | .cons h t => if t.len = H then some h else getHeight H t
  | .nil => none

/-- Unsigned subtraction modulo 2^32 (the arithmetic C++ performs on the
unsigned operands of sizeof...(Elements) - I - 1). -/
def usub (a b : Nat) : Nat := (a + 2 ^ 32 - b % 2 ^ 32) % 2 ^ 32

/-- The v4 fast-path get (tuples/optimized/constantget.hpp): compute the
target carrier's height as sizeof...(Elements) - I - 1 in unsigned
arithmetic and convert to the carrier at that height in a single step. -/
def getC {α : Type} (I : Nat) (t : Tuple4 α) : Option α :=
  getHeight (usub (usub t.len I) 1) t

end Tuple4

namespace TL

theorem pushBack_eq_append {σ : Type} (e : σ) (l : List σ) :
    pushBack e l = l ++ [e] := by
  induction l with
  | nil => rfl
  | cons h t ih => simp [pushBack, pushFront, ih]

theorem reverse_eq_reverse {σ : Type} (l : List σ) :
    reverse l = l.reverse := by
  induction l with
  | nil => rfl
  | cons h t ih => simp [reverse, pushBack_eq_append, ih]

theorem makeIndexListAux_eq (n : Nat) :
    ∀ r, makeIndexListAux n r = List.range n ++ r := by
  induction n with
  | zero => intro r; rfl
  | succ m ih =>
    intro r
    simp [makeIndexListAux, pushFront, ih, List.range_succ]

theorem makeIndexList_eq (n : Nat) : makeIndexList n = List.range n := by
  simp [makeIndexList, makeIndexListAux_eq]

end TL

namespace Tuple

theorem toList_ofList {α : Type} (l : List α) : toList (ofList l) = l := by
  induction l with
  | nil => rfl
  | cons h t ih => simp [ofList, toList, ih]

theorem ofList_toList {α : Type} (t : Tuple α) : ofList (toList t) = t := by
  induction t with
  | nil => rfl
  | cons h t ih => simp [ofList, toList, ih]

theorem get?_eq {α : Type} (t : Tuple α) : ∀ n, get? n t = t.toList[n]? := by
  induction t with
  | nil => intro n; cases n <;> rfl
  | cons h t ih =>
    intro n
    cases n with
    | zero => simp [get?, toList]
    | succ m => simp [get?, toList, ih]

theorem map_getD_range {α : Type} (l : List α) (d : α) :
    List.map (fun i => l.getD i d) (List.range l.length) = l := by
  induction l with
  | nil => rfl
  | cons h t ih =>
    rw [List.length_cons, List.range_succ_eq_map, List.map_cons, List.map_map]
    rw [List.getD_cons_zero]
    refine congrArg (h :: ·) ?_
    have hfun : ((fun i => (h :: t).getD i d) ∘ Nat.succ) = fun i => t.getD i d :=
      funext fun i => List.getD_cons_succ
    rw [hfun, ih]

theorem gather_eq {α : Type} [Inhabited α] (t : Tuple α) :
    ∀ idxs : List Nat, (∀ i ∈ idxs, i < t.toList.length) →
      gather t idxs = some (idxs.map (fun i => t.toList.getD i default)) := by
  intro idxs
  induction idxs with
  | nil => intro _; rfl
  | cons i is ih =>
    intro h
    have hi : i < t.toList.length := h i (List.mem_cons_self i is)
    have hrest : ∀ j ∈ is, j < t.toList.length := fun j hj => h j (List.mem_cons_of_mem i hj)
    have hget : get? i t = some (t.toList.getD i default) := by
      rw [get?_eq, List.getElem?_eq_getElem hi, List.getD_eq_getElem?_getD,
        List.getElem?_eq_getElem hi]
      rfl
    simp [gather, hget, ih hrest]

theorem reverse_intended_eq {α : Type} (t : Tuple α) :
    reverse_intended t = some (ofList t.toList.reverse) := by
  cases t with
  | nil => rfl
  | cons h t0 =>
    haveI : Inhabited α := ⟨h⟩
    set l := (Tuple.cons h t0).toList with hl
    have hidx : TL.reverse (TL.makeIndexList l.length) = (List.range l.length).reverse := by
      rw [TL.makeIndexList_eq, TL.reverse_eq_reverse]
    have hmem : ∀ i ∈ (List.range l.length).reverse, i < l.length := by
      intro i hi
      rw [List.mem_reverse, List.mem_range] at hi
      exact hi
    have hg := gather_eq (Tuple.cons h t0) (List.range l.length).reverse hmem
    rw [Tuple.reverse_intended, select_intended, hidx, hg]
    show some (ofList (List.map (fun i => l.getD i default) (List.range l.length).reverse))
      = some (ofList l.reverse)
    rw [List.map_reverse, map_getD_range]

theorem toList_push_back {α : Type} (t : Tuple α) (v : α) :
    toList (push_back t v) = toList t ++ [v] := by
  induction t with
  | nil => rfl
  | cons h t ih => simp [push_back, toList, ih]

end Tuple

theorem tupleEq_refl {α : Type} (eq : α → α → Bool) (heq : ∀ a, eq a a = true)
    (t : Tuple α) : tupleEq eq t t = some true := by
  induction t with
  | nil => rfl
  | cons h t ih => simp [tupleEq, heq, ih]

theorem tupleEqCount_fst {α : Type} (eq : α → α → Bool) (t1 : Tuple α) :
    ∀ t2, (tupleEqCount eq t1 t2).1 = tupleEq eq t1 t2 := by
  induction t1 with
  | nil => intro t2; cases t2 <;> rfl
  | cons h1 s1 ih =>
    intro t2
    cases t2 with
    | nil => rfl
    | cons h2 s2 =>
      by_cases hl : s1.toList.length = s2.toList.length
      · by_cases he : eq h1 h2 = true
        · simp [tupleEqCount, tupleEq, hl, he, ih]
        · simp [tupleEqCount, tupleEq, hl, he]
      · simp [tupleEqCount, tupleEq, hl]

theorem tupleEq_eq_all {α : Type} (eq : α → α → Bool) (t1 : Tuple α) :
    ∀ t2, t1.toList.length = t2.toList.length →
      tupleEq eq t1 t2 = some ((List.zipWith eq t1.toList t2.toList).all id) := by
  induction t1 with
  | nil => intro t2 hlen; cases t2 with
    | nil => rfl
    | cons h2 s2 => simp [Tuple.toList] at hlen
  | cons h1 s1 ih =>
    intro t2 hlen
    cases t2 with
    | nil => simp [Tuple.toList] at hlen
    | cons h2 s2 =>
      simp only [Tuple.toList, List.length_cons, Nat.add_right_cancel_iff] at hlen
      by_cases he : eq h1 h2 = true
      · simp [tupleEq, Tuple.toList, hlen, he, ih s2 hlen]
      · simp [tupleEq, Tuple.toList, hlen, he,
          Bool.eq_false_iff.mpr he]

theorem tupleEqCount_snd {α : Type} (eq : α → α → Bool) (t1 : Tuple α) :
    ∀ t2, t1.toList.length = t2.toList.length →
      (tupleEqCount eq t1 t2).2 =
        (if (List.zipWith eq t1.toList t2.toList).all id then t1.toList.length
         else ((List.zipWith eq t1.toList t2.toList).takeWhile id).length + 1) := by
  induction t1 with
  | nil => intro t2 hlen; cases t2 with
    | nil => rfl
    | cons h2 s2 => simp [Tuple.toList] at hlen
  | cons h1 s1 ih =>
    intro t2 hlen
    cases t2 with
    | nil => simp [Tuple.toList] at hlen
    | cons h2 s2 =>
      simp only [Tuple.toList, List.length_cons, Nat.add_right_cancel_iff] at hlen
      by_cases he : eq h1 h2 = true
      · by_cases ha : (List.zipWith eq s1.toList s2.toList).all id = true
        · simp [tupleEqCount, Tuple.toList, hlen, he, ha, ih s2 hlen]
        · simp [tupleEqCount, Tuple.toList, hlen, he, ha, ih s2 hlen,
            Bool.eq_false_iff.mpr ha, List.takeWhile]
      · simp [tupleEqCount, Tuple.toList, hlen, he, Bool.eq_false_iff.mpr he,
          List.takeWhile]

theorem tupleEq_none_of_length_ne {α : Type} (eq : α → α → Bool) (t1 : Tuple α) :
    ∀ t2, t1.toList.length ≠ t2.toList.length → tupleEq eq t1 t2 = none := by
  induction t1 with
  | nil => intro t2 hlen; cases t2 with
    | nil => exact absurd rfl hlen
    | cons h2 s2 => rfl
  | cons h1 s1 _ =>
    intro t2 hlen
    cases t2 with
    | nil => rfl
    | cons h2 s2 =>
      have : s1.toList.length ≠ s2.toList.length := by
        simp only [Tuple.toList, List.length_cons] at hlen
        omega
      simp [tupleEq, this]

namespace Tuple4

theorem usub_usub_one {n I : Nat} (hI : I < n) (hn : n < 2 ^ 32) :
    usub (usub n I) 1 = n - I - 1 := by
  have h32 : (2 : Nat) ^ 32 = 4294967296 := by norm_num
  simp only [usub, h32] at *
  omega

theorem getHeight_len_sub {α : Type} (t : Tuple4 α) :
    ∀ I, I < t.len → getHeight (t.len - I - 1) t = getLin I t := by
  induction t with
  | nil => intro I hI; simp [len] at hI
  | cons h s ih =>
    intro I hI
    cases I with
    | zero =>
      have : (Tuple4.cons h s).len - 0 - 1 = s.len := by simp [len]
      rw [this]
      simp [getHeight, getLin]
    | succ m =>
      have hm : m < s.len := by simp [len] at hI; omega
      have harg : (Tuple4.cons h s).len - (m + 1) - 1 = s.len - m - 1 := by
        simp [len]
      have hne : ¬ s.len = s.len - m - 1 := by omega
      rw [harg]
      simp [getHeight, getLin, hne, ih m hm]

end Tuple4

/-- C1 (code bug): select as the source writes it calls make_Tuple, which
is declared nowhere in the program (tuple.hpp declares make_tuple), so
every instantiation of select, and with it of reverse and pop_back, is a
compile error and pop_back of push_back of R and v cannot be built as
written; with the call resolved to the evidently intended make_tuple,
pop_back of push_back of R and v rebuilds exactly R, and the result is
structurally equal to R under operator== whenever the elementwise
comparison is reflexive. -/
theorem pop_back_push_back_spec {α : Type} (eq : α → α → Bool)
    (heq : ∀ a, eq a a = true) (R : Tuple α) (v : α) :
    Tuple.pop_back (Tuple.push_back R v) = none ∧
    Tuple.pop_back_intended (Tuple.push_back R v) = some R ∧
    (Tuple.pop_back_intended (Tuple.push_back R v)).bind (fun S => tupleEq eq S R)
      = some true := by
  have h1 : Tuple.pop_back_intended (Tuple.push_back R v) = some R := by
    unfold Tuple.pop_back_intended
    rw [Tuple.reverse_intended_eq (Tuple.push_back R v), Tuple.toList_push_back]
    have h2 : (R.toList ++ [v]).reverse = v :: R.toList.reverse := by simp
    rw [h2]
    show Tuple.reverse_intended (Tuple.ofList R.toList.reverse) = some R
    rw [Tuple.reverse_intended_eq, Tuple.toList_ofList, List.reverse_reverse,
      Tuple.ofList_toList]
  refine ⟨rfl, h1, ?_⟩
  rw [h1]
  show tupleEq eq R R = some true
  exact tupleEq_refl eq heq R

/-- Witness for C1 at a concrete record and value: as written the code
yields no record at all, and the intended resolution rebuilds the
original. -/
theorem pop_back_push_back_spec_witness :
    Tuple.pop_back (Tuple.push_back (Tuple.ofList [1, 2, 3]) 7) = none ∧
    Tuple.pop_back_intended (Tuple.push_back (Tuple.ofList [1, 2, 3]) 7)
      = some (Tuple.ofList [1, 2, 3]) ∧
    (Tuple.pop_back_intended (Tuple.push_back (Tuple.ofList [1, 2, 3]) 7)).bind
      (fun S => tupleEq Nat.beq S (Tuple.ofList [1, 2, 3])) = some true :=
  pop_back_push_back_spec Nat.beq (fun a => Nat.beq_refl a) (Tuple.ofList [1, 2, 3]) 7

/-- C2: for every Tuple4 record and every in-range index I, the v4
fast-path get, which computes the target carrier height as arity - I - 1
in unsigned arithmetic and converts to the carrier at that height in one
step, returns the same element as the linear recursive-descent get that
walks I tail links. -/
theorem getC_eq_getLin {α : Type} (t : Tuple4 α) (I : Nat)
    (hI : I < t.len) (hlen : t.len < 2 ^ 32) :
    Tuple4.getC I t = Tuple4.getLin I t := by
  rw [Tuple4.getC, Tuple4.usub_usub_one hI hlen]
  exact Tuple4.getHeight_len_sub t I hI

/-- Witness for C2 at a concrete three-element record and index 1. -/
theorem getC_eq_getLin_witness :
    (1 : Nat) < (Tuple4.cons 10 (Tuple4.cons 20 (Tuple4.cons (30 : Nat) Tuple4.nil))).len ∧
    (Tuple4.cons 10 (Tuple4.cons 20 (Tuple4.cons (30 : Nat) Tuple4.nil))).len < 2 ^ 32 ∧
    Tuple4.getC 1 (Tuple4.cons 10 (Tuple4.cons 20 (Tuple4.cons (30 : Nat) Tuple4.nil)))
      = Tuple4.getLin 1 (Tuple4.cons 10 (Tuple4.cons 20 (Tuple4.cons (30 : Nat) Tuple4.nil))) :=
  ⟨by decide, by norm_num [Tuple4.len],
    getC_eq_getLin (Tuple4.cons 10 (Tuple4.cons 20 (Tuple4.cons (30 : Nat) Tuple4.nil))) 1
      (by decide) (by norm_num [Tuple4.len])⟩

/-- C3 counterexample: running the same InsertionSort with the same
greater-than comparison on the same values tagged with their original
positions shows the two equal 2 elements do not keep their original
relative order: the tag sequence of the tied 2s in the output is not
the original [1, 5]. -/
theorem insertionSort_ties_reversed :
    TL.insertionSort (fun a b : Int × Nat => decide (a.1 > b.1))
        [(6, 0), (2, 1), (4, 2), (9, 3), (5, 4), (2, 5), (1, 6), (7, 7)]
      = [(9, 3), (7, 7), (6, 0), (5, 4), (4, 2), (2, 5), (2, 1), (1, 6)] ∧
    ((TL.insertionSort (fun a b : Int × Nat => decide (a.1 > b.1))
        [(6, 0), (2, 1), (4, 2), (9, 3), (5, 4), (2, 5), (1, 6), (7, 7)]).filter
          (fun p => p.1 == 2)).map Prod.snd ≠ [1, 5] := by
  exact ⟨by decide, by decide⟩

/-- C3 (amended): InsertionSort with the greater-than predicate on
[6, 2, 4, 9, 5, 2, 1, 7] yields exactly [9, 7, 6, 5, 4, 2, 2, 1], and
InsertSorted places the newly inserted element before an existing element
only if the predicate strictly orders it before that element; but because
InsertionSort inserts each element into the sorted suffix that follows it,
tied elements end up in reversed original relative order, as the
position-tagged run shows. -/
theorem insertionSort_spec :
    TL.insertionSort (fun a b : Int => decide (a > b)) [6, 2, 4, 9, 5, 2, 1, 7]
      = [9, 7, 6, 5, 4, 2, 2, 1] ∧
    TL.insertSorted (fun a b : Int × Nat => decide (a.1 > b.1)) [(2, 5), (1, 6)] (2, 1)
      = [(2, 5), (2, 1), (1, 6)] ∧
    TL.insertionSort (fun a b : Int × Nat => decide (a.1 > b.1))
        [(6, 0), (2, 1), (4, 2), (9, 3), (5, 4), (2, 5), (1, 6), (7, 7)]
      = [(9, 3), (7, 7), (6, 0), (5, 4), (4, 2), (2, 5), (2, 1), (1, 6)] := by
  exact ⟨by decide, by decide, by decide⟩

/-- C4: operator== on same-arity records compares positionwise with the
elementwise comparison, returning true exactly when every position
agrees; two empty records always compare equal; the conjunction evaluates
comparisons front to back and evaluates none after the first mismatch
(the instrumented count is the position of the first mismatch plus one,
or the arity when there is none); and for records of different arity no
operator== overload exists, embedded as none. -/
theorem tupleEq_spec {α : Type} (eq : α → α → Bool) (t1 t2 : Tuple α) :
    (tupleEqCount eq t1 t2).1 = tupleEq eq t1 t2 ∧
    tupleEq eq (Tuple.nil : Tuple α) Tuple.nil = some true ∧
    (t1.toList.length = t2.toList.length →
      tupleEq eq t1 t2 = some ((List.zipWith eq t1.toList t2.toList).all id) ∧
      (tupleEqCount eq t1 t2).2 =
        (if (List.zipWith eq t1.toList t2.toList).all id then t1.toList.length
         else ((List.zipWith eq t1.toList t2.toList).takeWhile id).length + 1)) ∧
    (t1.toList.length ≠ t2.toList.length → tupleEq eq t1 t2 = none) := by
  refine ⟨tupleEqCount_fst eq t1 t2, rfl, fun hlen => ?_, fun hlen => ?_⟩
  · exact ⟨tupleEq_eq_all eq t1 t2 hlen, tupleEqCount_snd eq t1 t2 hlen⟩
  · exact tupleEq_none_of_length_ne eq t1 t2 hlen

/-- Witness for C4: a record pair mismatching at position 1 of 3, where
exactly two comparisons are evaluated, and a pair of different arity. -/
theorem tupleEq_spec_witness :
    tupleEq Nat.beq (Tuple.ofList [1, 2, 3]) (Tuple.ofList [1, 5, 9])
      = some ((List.zipWith Nat.beq [1, 2, 3] [1, 5, 9]).all id) ∧
    (tupleEqCount Nat.beq (Tuple.ofList [1, 2, 3]) (Tuple.ofList [1, 5, 9])).2 = 2 ∧
    tupleEq Nat.beq (Tuple.ofList [1, 2]) (Tuple.ofList [1, 2, 3]) = none := by
  refine ⟨?_, ?_, ?_⟩
  · exact ((tupleEq_spec Nat.beq (Tuple.ofList [1, 2, 3]) (Tuple.ofList [1, 5, 9])).2.2.1
      (by decide)).1
  · have h := ((tupleEq_spec Nat.beq (Tuple.ofList [1, 2, 3]) (Tuple.ofList [1, 5, 9])).2.2.1
      (by decide)).2
    rw [h]
    decide
  · exact (tupleEq_spec Nat.beq (Tuple.ofList [1, 2]) (Tuple.ofList [1, 2, 3])).2.2.2
      (by decide)

/-- C5: for every type list, including the empty one, the structural
Reverse applied twice is the identity. -/
theorem reverse_involutive {σ : Type} (l : List σ) :
    TL.reverse (TL.reverse l) = l := by
  rw [TL.reverse_eq_reverse, TL.reverse_eq_reverse, List.reverse_reverse]

/-- C6: push_front of R and v yields the record with head v and tail R:
get of index 0 returns v, pop_front returns R, and the popped record is
structurally equal to R under operator== whenever the elementwise
comparison is reflexive. -/
theorem push_front_spec {α : Type} (eq : α → α → Bool) (heq : ∀ a, eq a a = true)
    (R : Tuple α) (v : α) :
    Tuple.get? 0 (Tuple.push_front R v) = some v ∧
    Tuple.pop_front (Tuple.push_front R v) = some R ∧
    (Tuple.pop_front (Tuple.push_front R v)).bind (fun S => tupleEq eq S R) = some true := by
  refine ⟨rfl, rfl, ?_⟩
  show tupleEq eq R R = some true
  exact tupleEq_refl eq heq R

/-- Witness for C6 at a concrete record and value. -/
theorem push_front_spec_witness :
    Tuple.get? 0 (Tuple.push_front (Tuple.ofList [4, 5]) 9) = some 9 ∧
    Tuple.pop_front (Tuple.push_front (Tuple.ofList [4, 5]) 9) = some (Tuple.ofList [4, 5]) ∧
    (Tuple.pop_front (Tuple.push_front (Tuple.ofList [4, 5]) 9)).bind
      (fun S => tupleEq Nat.beq S (Tuple.ofList [4, 5])) = some true :=
  push_front_spec Nat.beq (fun a => Nat.beq_refl a) (Tuple.ofList [4, 5]) 9

/-- C7: the pack-expansion specialization of Transform agrees with the
structural-recursive form of Transform on every list, including the empty
one, for every elementwise metafunction. -/
theorem transformPack_eq_transformRec {σ τ : Type} (f : σ → τ) (l : List σ) :
    TL.transformPack f l = TL.transformRec f l := by
  induction l with
  | nil => rfl
  | cons h t ih =>
    show f h :: List.map f t = TL.pushFront (f h) (TL.transformRec f t)
    rw [TL.pushFront, ← ih]
    rfl

/-- C8 (code bug): streaming the empty record prints a single opening
parenthesis, not the pair of parentheses the rendering format promises;
nonempty records render correctly as the elements in order, separated by
comma-space, between one pair of parentheses. -/
theorem print_tuple_empty_renders_open_paren :
    streamTuple (fun n : Nat => toString n) Tuple.nil = "(" ∧
    streamTuple (fun n : Nat => toString n) Tuple.nil ≠ "()" ∧
    streamTuple (fun n : Nat => toString n) (Tuple.ofList [1, 2]) = "(1, 2)" := by
  exact ⟨rfl, by decide, by decide⟩

/-- C10: MakeIndexList of N is exactly the ascending index sequence 0 to
N-1, and MakeIndexList of 0 is the empty list. -/
theorem makeIndexList_spec (n : Nat) :
    TL.makeIndexList n = List.range n ∧ TL.makeIndexList 0 = [] :=
  ⟨TL.makeIndexList_eq n, rfl⟩
